import Mathlib

/-!
Verification of the retro-game music generator (src/main.py).

The Python program is shallowly embedded: the process-wide random source
is modelled as an oracle `g : Nat -> Nat` together with a draw counter,
so `random.choice(l)` becomes taking the element at index `g k % l.length`
and advancing the counter. Python exceptions (IndexError, ValueError,
ZeroDivisionError) are modelled by `Option`: `none` means the operation
raised. Float durations (all exactly representable binary fractions)
are embedded as rationals.
-/

set_option autoImplicit false

namespace Music

/-- The note alphabet, `MusicScale.notes = ['C','D','E','F','G','A','B']`. -/
def notes : List String := ["C", "D", "E", "F", "G", "A", "B"]

/-- The scale table lookup, `MusicScale.get_scale_degrees`: the Python dict
`self.scales.get(scale, [])` with the four registered scales. -/
def get_scale_degrees (scale : String) : List Nat :=
  if scale = "major" then [0, 2, 4, 5, 7, 9, 11]
  else if scale = "minor" then [0, 2, 3, 5, 7, 8, 10]
  else if scale = "dorian" then [0, 2, 3, 5, 7, 9, 10]
  else if scale = "mixolydian" then [0, 2, 4, 5, 7, 9, 10]
  else []

/-- The four registered scale names. -/
def known_scales : List String := ["major", "minor", "dorian", "mixolydian"]

/-- Chord symbols: the keys of `chord_symbols_to_degrees`. -/
inductive ChordSym where
  | I | ii | iii | IV | V | vi | vii
  deriving DecidableEq, Repr

/-- `ChordProgressionGenerator.chord_symbols_to_degrees`. -/
def chord_symbols_to_degrees : ChordSym → Nat
  | ChordSym.I => 0
  | ChordSym.ii => 1
  | ChordSym.iii => 2
  | ChordSym.IV => 3
  | ChordSym.V => 4
  | ChordSym.vi => 5
  | ChordSym.vii => 6

/-- `ChordProgressionGenerator.chord_progressions`: the fixed catalog of five
literal progressions. -/
def chord_progressions : List (List ChordSym) :=
  [[ChordSym.I, ChordSym.IV, ChordSym.V],
   [ChordSym.ii, ChordSym.V, ChordSym.I],
   [ChordSym.vi, ChordSym.IV, ChordSym.I, ChordSym.V],
   [ChordSym.ii, ChordSym.V, ChordSym.I, ChordSym.IV],
   [ChordSym.I, ChordSym.iii, ChordSym.IV, ChordSym.ii, ChordSym.V, ChordSym.vi]]

/-- Model of `random.choice(l)`: the oracle `g` at counter `k` selects index
`g k % l.length`; the counter advances by one.  On an empty list Python
raises IndexError, modelled as `none` (for `l = []` the `get?` misses). -/
def choice {α : Type} (g : Nat → Nat) (k : Nat) (l : List α) : Option (α × Nat) :=
  (l.get? (g k % l.length)).map (fun a => (a, k + 1))

/-- `ChordProgressionGenerator.generate_chord_progression`: a random pick from
the catalog; the `scale` argument is accepted but unused (source quirk). -/
def generate_chord_progression (g : Nat → Nat) (k : Nat) (_scale : String) :
    Option (List ChordSym × Nat) :=
  choice g k chord_progressions

/-- Model of Python `list.index`: index of the first occurrence, `none` when
the element is absent (Python raises ValueError). -/
def index_of : List String → String → Option Nat
  | [], _ => none
  | x :: xs, s => if x = s then some 0 else (index_of xs s).map (· + 1)

/-- `ChordProgressionGenerator.get_harmonic_notes`:
`[notes[(chord_degree + degree) % len(notes)] for degree in scale_degrees]`.
The index is taken mod 7 so it is always in range; `getD` never falls back
to its default. -/
def get_harmonic_notes (chord_symbol : ChordSym) (scale : String) : List String :=
  let chord_degree := chord_symbols_to_degrees chord_symbol
  let scale_degrees := get_scale_degrees scale
  scale_degrees.map (fun degree => notes.getD ((chord_degree + degree) % notes.length) "")

/-- A melody entry as produced by `generate_melody`: the seed note is a bare
letter string, every later entry is a `(letter, duration)` tuple. -/
inductive MNote where
  | bare (s : String)
  | pair (s : String) (d : ℚ)
  deriving DecidableEq, Repr

/-- `RetroGameMelodyGenerator.note_durations`. -/
def note_durations : List ℚ := [1/4, 1/2, 3/4, 1, 3/2, 2]

/-- The step pool of `generate_melody`: `[1,2,3,4,5,6]`, extended by `[6,7,8]`
when the chord degree is structurally strong (`in [0,3,4,6]`). -/
def available_steps (chord_degree : Nat) : List Nat :=
  [1, 2, 3, 4, 5, 6] ++
    (if chord_degree ∈ ([0, 3, 4, 6] : List Nat) then [6, 7, 8] else [])

/-- The 63-iteration loop of `generate_melody`.  Each iteration draws a chord
symbol from the progression, a step from the pool, reduces the running degree
`% len(scale_degrees)`, indexes `notes` with it (IndexError modelled by the
`get?` bind), and draws a duration. -/
def melody_loop (g : Nat → Nat) (prog : List ChordSym) (degrees : List Nat) :
    Nat → Nat → Nat → Option (List MNote × Nat)
  | 0, k, _ => some ([], k)
  | n + 1, k, current =>
    match choice g k prog with
    | none => none
    | some (sym, k1) =>
      match choice g k1 (available_steps (chord_symbols_to_degrees sym)) with
      | none => none
      | some (step, k2) =>
        let cur2 := (current + step) % degrees.length
        match notes.get? cur2 with
        | none => none
        | some s =>
          match choice g k2 note_durations with
          | none => none
          | some (dur, k3) =>
            match melody_loop g prog degrees n k3 cur2 with
            | none => none
            | some (rest, k4) => some (MNote.pair s dur :: rest, k4)

/-- `RetroGameMelodyGenerator.generate_melody`: seed draw
`current_degree = random.choice(scale_degrees)`, seed note
`notes[current_degree % len(notes)]` appended bare, then 63 loop iterations. -/
def generate_melody (g : Nat → Nat) (k : Nat) (prog : List ChordSym)
    (scale : String) : Option (List MNote × Nat) :=
  let degrees := get_scale_degrees scale
  match choice g k degrees with
  | none => none
  | some (current, k1) =>
    match notes.get? (current % notes.length) with
    | none => none
    | some seed =>
      match melody_loop g prog degrees 63 k1 current with
      | none => none
      | some (rest, k2) => some (MNote.bare seed :: rest, k2)

/-- A Python list comprehension whose body may raise: `some` of the mapped
list when every element succeeds, `none` as soon as one raises. -/
def map_option {α β : Type} (f : α → Option β) : List α → Option (List β)
  | [] => some []
  | a :: l =>
    match f a, map_option f l with
    | some b, some bl => some (b :: bl)
    | _, _ => none

/-- The pool built at the start of `generate_harmony`: the concatenation of
`get_harmonic_notes` over the progression's symbols. -/
def hpool (prog : List ChordSym) (scale : String) : List String :=
  (prog.map (fun sym => get_harmonic_notes sym scale)).flatten

/-- One comprehension body of `generate_harmony` at a given offset: a tuple
entry is looked up in `notes` (`.index`, ValueError modelled by `index_of`)
and replaced by `pool[(idx + offset) % len(pool)]` with duration 0.25; a bare
entry passes through with duration 0.25.  An empty pool makes `% len(pool)`
raise ZeroDivisionError in Python; here the `get?` on the empty pool misses,
giving `none` as well. -/
def hstep (pool : List String) (offset : Nat) : MNote → Option (String × ℚ)
  | MNote.pair s _ =>
    match index_of notes s with
    | none => none
    | some idx => (pool.get? ((idx + offset) % pool.length)).map (fun p => (p, (1/4 : ℚ)))
  | MNote.bare s => some (s, (1/4 : ℚ))

/-- `RetroGameHarmonyGenerator.generate_harmony`: the offset-2 comprehension
over the whole melody concatenated with the offset-4 comprehension. -/
def generate_harmony (melody : List MNote) (prog : List ChordSym)
    (scale : String) : Option (List (String × ℚ)) :=
  let pool := hpool prog scale
  match map_option (hstep pool 2) melody, map_option (hstep pool 4) melody with
  | some p2, some p4 => some (p2 ++ p4)
  | _, _ => none

/-- The dynamic type of the first component of a bass input entry: in Python
it is whatever object sits first in the 2-tuple — a plain string letter in
every real call, but the code's `isinstance(note, tuple)` test asks whether
it is itself a tuple, so both shapes are represented. -/
inductive BassIn where
  | str (s : String)
  | tup (s : String) (d : ℚ)
  deriving DecidableEq, Repr

/-- The loop of `generate_bass`.  A tuple first component takes the
transposition branch: `note_degree = notes.index(note[0])`,
`bass_note_degree = (note_degree - 9) % len(scale_degrees)` (Python floor
mod, hence `Int.emod`; `% 0` raises ZeroDivisionError), then
`notes[scale_degrees[bass_note_degree]]` by direct indexing (IndexError
modelled by `get?`).  A string first component takes the `else` branch and
is appended unchanged. -/
def bass_loop (degrees : List Nat) : List (BassIn × ℚ) → Option (List (BassIn × ℚ))
  | [] => some []
  | (note, duration) :: rest =>
    match note with
    | BassIn.tup s _ =>
      match index_of notes s with
      | none => none
      | some note_degree =>
        if degrees.length = 0 then none
        else
          let bass_note_degree := (((note_degree : Int) - 9) % (degrees.length : Int)).toNat
          match degrees.get? bass_note_degree with
          | none => none
          | some dv =>
            match notes.get? dv with
            | none => none
            | some bass_note =>
              match bass_loop degrees rest with
              | none => none
              | some r => some ((BassIn.str bass_note, duration) :: r)
    | BassIn.str _ =>
      match bass_loop degrees rest with
      | none => none
      | some r => some ((note, duration) :: r)

/-- `RetroGameBassGenerator.generate_bass`. -/
def generate_bass (melody : List (BassIn × ℚ)) (scale : String) :
    Option (List (BassIn × ℚ)) :=
  bass_loop (get_scale_degrees scale) melody

/-- The normalization in `generate_music`:
`(note, 0.25) if isinstance(note, str) else note`. -/
def normalize : MNote → String × ℚ
  | MNote.bare s => (s, 1/4)
  | MNote.pair s d => (s, d)

/-- `RetroGameMusicGenerator.generate_music`: the orchestrated pipeline.  The
`try/except` that returns `(None, None, None)` on any exception is the
`Option` short-circuit: any failing step yields `none`. -/
def generate_music (g : Nat → Nat) (k : Nat) (scale : String) :
    Option (List (String × ℚ) × List (String × ℚ) × List (BassIn × ℚ)) :=
  match generate_chord_progression g k scale with
  | none => none
  | some (prog, k1) =>
    match generate_melody g k1 prog scale with
    | none => none
    | some (mel, _k2) =>
      let melodyN := mel.map normalize
      match generate_harmony (melodyN.map (fun p => MNote.pair p.1 p.2)) prog scale with
      | none => none
      | some harmony =>
        match generate_bass (melodyN.map (fun p => (BassIn.str p.1, p.2))) scale with
        | none => none
        | some bass => some (melodyN, harmony, bass)

/-- Boolean test that a bass input entry's first component is a plain string
letter, as every entry of a normalized melody is. -/
def is_str : BassIn → Bool
  | BassIn.str _ => true
  | BassIn.tup _ _ => false

/-- Boolean test that a melody entry, when it is a `(letter, duration)` pair,
carries a letter of the note alphabet. -/
def pair_okb : MNote → Bool
  | MNote.pair s _ => decide (s ∈ notes)
  | MNote.bare _ => true

section Helpers

lemma bass_loop_str (degrees : List Nat) :
    ∀ m : List (BassIn × ℚ), (∀ e ∈ m, is_str e.1 = true) →
      bass_loop degrees m = some m := by
  intro m
  induction m with
  | nil => intro _; rfl
  | cons e rest ih =>
    intro h
    obtain ⟨note, duration⟩ := e
    cases note with
    | str s =>
      have hrest : bass_loop degrees rest = some rest :=
        ih (fun x hx => h x (List.mem_cons_of_mem _ hx))
      simp [bass_loop, hrest]
    | tup s d =>
      have := h (BassIn.tup s d, duration) (List.mem_cons_self _ _)
      simp [is_str] at this

lemma choice_ne_nil {α : Type} (g : Nat → Nat) (k : Nat) {l : List α} (h : l ≠ []) :
    ∃ a, a ∈ l ∧ l.get? (g k % l.length) = some a ∧ choice g k l = some (a, k + 1) := by
  have hlen : 0 < l.length := List.length_pos.mpr h
  have hlt : g k % l.length < l.length := Nat.mod_lt _ hlen
  refine ⟨l.get ⟨g k % l.length, hlt⟩, List.get_mem _ _ _, ?_, ?_⟩
  · exact List.get?_eq_get hlt
  · simp [choice, List.get?_eq_get hlt]

lemma choice_some_inv {α : Type} {g : Nat → Nat} {k : Nat} {l : List α} {a : α}
    {k2 : Nat} (h : choice g k l = some (a, k2)) : a ∈ l ∧ k2 = k + 1 := by
  unfold choice at h
  cases hg : l.get? (g k % l.length) with
  | none => rw [hg] at h; cases h
  | some b =>
    rw [hg] at h
    simp at h
    exact ⟨h.1 ▸ List.get?_mem hg, h.2.symm⟩

lemma choice_congr {α : Type} {g1 g2 : Nat → Nat} {k : Nat} (l : List α)
    (h : g1 k = g2 k) : choice g1 k l = choice g2 k l := by
  simp [choice, h]

lemma catalog_mem_ne_nil : ∀ p ∈ chord_progressions, p ≠ [] := by decide

lemma degrees_len_seven : ∀ s ∈ known_scales, (get_scale_degrees s).length = 7 := by
  decide

lemma unknown_scale_degrees {s : String} (hs : s ∉ known_scales) :
    get_scale_degrees s = [] := by
  simp [known_scales] at hs
  simp [get_scale_degrees, hs.1, hs.2.1, hs.2.2.1, hs.2.2.2]

lemma bass_map_str (m : List (String × ℚ)) (scale : String) :
    generate_bass (m.map (fun p => (BassIn.str p.1, p.2))) scale =
      some (m.map (fun p => (BassIn.str p.1, p.2))) := by
  apply bass_loop_str
  intro e he
  obtain ⟨p, _, hp⟩ := List.mem_map.mp he
  rw [← hp]
  rfl

lemma available_steps_ne_nil (cd : Nat) : available_steps cd ≠ [] := by
  simp [available_steps]

lemma note_durations_ne_nil : note_durations ≠ [] := by
  simp [note_durations]

lemma melody_loop_shape (g : Nat → Nat) (prog : List ChordSym) (degrees : List Nat)
    (hp : prog ≠ []) (hd : degrees.length = 7) :
    ∀ n k current : Nat, ∃ lst k2,
      melody_loop g prog degrees n k current = some (lst, k2) ∧
      lst.length = n ∧
      ∀ e ∈ lst, ∃ s dur, e = MNote.pair s dur ∧ s ∈ notes ∧ dur ∈ note_durations := by
  intro n
  induction n with
  | zero => exact fun k current => ⟨[], k, rfl, rfl, by simp⟩
  | succ n ih =>
    intro k current
    obtain ⟨sym, _, _, hcs⟩ := choice_ne_nil g k hp
    obtain ⟨step, _, _, hcstep⟩ :=
      choice_ne_nil g (k + 1) (available_steps_ne_nil (chord_symbols_to_degrees sym))
    have hlt : (current + step) % degrees.length < notes.length := by
      rw [hd]
      exact Nat.mod_lt _ (by norm_num)
    have hgets : notes.get? ((current + step) % degrees.length) =
        some (notes.get ⟨(current + step) % degrees.length, hlt⟩) :=
      List.get?_eq_get hlt
    obtain ⟨dur, hdurmem, _, hcd⟩ := choice_ne_nil g (k + 2) note_durations_ne_nil
    obtain ⟨rest, k4, hrec, hlen, hall⟩ := ih (k + 3) ((current + step) % degrees.length)
    refine ⟨MNote.pair (notes.get ⟨(current + step) % degrees.length, hlt⟩) dur :: rest,
      k4, ?_, by simp [hlen], ?_⟩
    · simp only [melody_loop, hcs, hcstep, hgets, hcd, hrec]
    · intro e he
      rcases List.mem_cons.mp he with he | he
      · exact ⟨_, _, he, List.get_mem _ _ _, hdurmem⟩
      · exact hall e he

end Helpers

/-- Claim C9: `get_scale_degrees` returns exactly 7 integers, each in [0,11],
for each of the four names major, minor, dorian, mixolydian, and returns the
empty sequence (raising no error) for every other scale name. -/
theorem c9_scale_degrees_contract :
    (∀ s ∈ known_scales, (get_scale_degrees s).length = 7 ∧
       ∀ d ∈ get_scale_degrees s, d ≤ 11) ∧
    (∀ s : String, s ∉ known_scales → get_scale_degrees s = []) :=
  ⟨by decide, fun _ hs => unknown_scale_degrees hs⟩

/-- Claim C9 witness: the contract instantiated at "major" and at the unknown
name "pentatonic". -/
theorem c9_witness :
    ((get_scale_degrees "major").length = 7 ∧
      ∀ d ∈ get_scale_degrees "major", d ≤ 11) ∧
    get_scale_degrees "pentatonic" = [] :=
  ⟨c9_scale_degrees_contract.1 "major" (by decide),
   c9_scale_degrees_contract.2 "pentatonic" (by decide)⟩

/-- Claim C4 counterexample: `get_harmonic_notes` for symbol I and scale major
does not return the seven letters `[C,D,E,F,G,A,B]` claimed. -/
theorem c4_counterexample :
    get_harmonic_notes ChordSym.I "major" ≠ ["C", "D", "E", "F", "G", "A", "B"] := by
  decide

/-- Claim C4 (amended): `get_harmonic_notes` for symbol I and scale major
returns `[C,E,G,A,C,E,G]` — the degree-0 + major-degrees-mod-7 derivation,
with duplicates, not the clean diatonic spelling. -/
theorem c4_harmonic_I_major :
    get_harmonic_notes ChordSym.I "major" = ["C", "E", "G", "A", "C", "E", "G"] := by
  decide

/-- Claim C1 counterexample: on the single-event melody `[("E", 1)]` over the
major scale, the claimed transposition would produce
`NoteAlphabet[degrees[(4 - 9 - 5) mod 7]] = NoteAlphabet[degrees[0]] = "C"`,
but `generate_bass` returns the event unchanged. -/
theorem c1_counterexample :
    generate_bass [(BassIn.str "E", 1)] "major" = some [(BassIn.str "E", 1)] ∧
    generate_bass [(BassIn.str "E", 1)] "major" ≠ some [(BassIn.str "C", 1)] := by
  constructor
  · rfl
  · intro h
    simp [generate_bass, bass_loop] at h

/-- Claim C1 (amended): for every melody of normalized `(letter, duration)`
pairs, `generate_bass` returns the melody unchanged, event for event: the
unpacked letter is a string, never a tuple, so the scale-degree-transposition
branch is never taken. -/
theorem c1_bass_passthrough (m : List (String × ℚ)) (scale : String) :
    generate_bass (m.map (fun p => (BassIn.str p.1, p.2))) scale =
      some (m.map (fun p => (BassIn.str p.1, p.2))) :=
  bass_map_str m scale

/-- Claim C2: for every melody consisting solely of entries whose first
component is a letter string, `generate_bass` returns the melody unchanged,
because the tuple test guarding the transposition branch never holds. -/
theorem c2_bass_identity (melody : List (BassIn × ℚ)) (scale : String)
    (h : ∀ e ∈ melody, is_str e.1 = true) :
    generate_bass melody scale = some melody :=
  bass_loop_str _ melody h

/-- Claim C2 witness: a concrete two-event melody over the minor scale passes
through unchanged. -/
theorem c2_witness :
    generate_bass [(BassIn.str "C", 1), (BassIn.str "A", 1/2)] "minor" =
      some [(BassIn.str "C", 1), (BassIn.str "A", 1/2)] :=
  c2_bass_identity _ "minor" (by decide)

/-- Claim C3 counterexample: there is no melody of normalized
`(letter, duration)` pairs over any built-in scale on which `generate_bass`
raises — the negation of the claimed existence of real inputs triggering
IndexOutOfRange in the bass derivation. -/
theorem c3_counterexample :
    ¬ ∃ scale ∈ known_scales, ∃ m : List (String × ℚ),
      generate_bass (m.map (fun p => (BassIn.str p.1, p.2))) scale = none := by
  rintro ⟨scale, _, m, hm⟩
  rw [bass_map_str m scale] at hm
  cases hm

/-- Claim C3 (amended): for every built-in scale the transposition branch's
direct indexing is indeed out of range on real letters — fed an actual tuple
entry it fails (e.g. letter "C" maps to a degree value ≥ 7) — but melodies of
normalized `(letter, duration)` pairs never enter that branch, so
`generate_bass` never raises and always completes. -/
theorem c3_dead_branch (scale : String) (hs : scale ∈ known_scales) :
    generate_bass [(BassIn.tup "C" (1/4), (1/4 : ℚ))] scale = none ∧
    ∀ m : List (String × ℚ),
      (generate_bass (m.map (fun p => (BassIn.str p.1, p.2))) scale).isSome := by
  constructor
  · fin_cases hs <;> rfl
  · intro m
    rw [bass_map_str m scale]
    rfl

/-- Claim C3 witness: over the major scale, the tuple-entry probe fails while
a concrete real melody succeeds. -/
theorem c3_witness :
    generate_bass [(BassIn.tup "C" (1/4), (1/4 : ℚ))] "major" = none ∧
    (generate_bass ([("C", (1 : ℚ))].map (fun p => (BassIn.str p.1, p.2))) "major").isSome :=
  ⟨(c3_dead_branch "major" (by decide)).1,
   (c3_dead_branch "major" (by decide)).2 [("C", 1)]⟩

/-- Claim C10: for every scale name outside the four registered scales, the
degree table is empty, the melody engine's first random draw fails, and
`generate_music` returns no composition at all. -/
theorem c10_unknown_scale (g : Nat → Nat) (k : Nat) (scale : String)
    (hs : scale ∉ known_scales) :
    get_scale_degrees scale = [] ∧
    (∀ (prog : List ChordSym) (k1 : Nat), generate_melody g k1 prog scale = none) ∧
    generate_music g k scale = none := by
  have hdeg : get_scale_degrees scale = [] := unknown_scale_degrees hs
  have hmel : ∀ (prog : List ChordSym) (k1 : Nat),
      generate_melody g k1 prog scale = none := by
    intro prog k1
    simp [generate_melody, hdeg, choice]
  refine ⟨hdeg, hmel, ?_⟩
  unfold generate_music
  cases hc : generate_chord_progression g k scale with
  | none => rfl
  | some p =>
    obtain ⟨prog, k1⟩ := p
    simp [hmel prog k1]

/-- Claim C10 witness: the unknown scale "pentatonic" yields an empty degree
table, a failing melody draw, and no composition. -/
theorem c10_witness :
    get_scale_degrees "pentatonic" = [] ∧
    generate_melody (fun _ => 0) 0 [] "pentatonic" = none ∧
    generate_music (fun _ => 0) 0 "pentatonic" = none :=
  ⟨(c10_unknown_scale (fun _ => 0) 0 "pentatonic" (by decide)).1,
   (c10_unknown_scale (fun _ => 0) 0 "pentatonic" (by decide)).2.1 [] 0,
   (c10_unknown_scale (fun _ => 0) 0 "pentatonic" (by decide)).2.2⟩

/-- Claim C5: for every progression from the fixed catalog and every known
scale name, `generate_melody` succeeds with exactly 64 events; the first is a
bare letter equal to `notes[d % 7]` where `d` is the randomly drawn degree
value, and each of the remaining 63 is a `(letter, duration)` pair with the
letter in the 7-letter alphabet and the duration in the fixed set. -/
theorem c5_melody_shape (g : Nat → Nat) (k : Nat) (prog : List ChordSym)
    (scale : String) (hp : prog ∈ chord_progressions) (hs : scale ∈ known_scales) :
    ∃ m k2 d seed,
      generate_melody g k prog scale = some (m, k2) ∧
      m.length = 64 ∧
      (get_scale_degrees scale).get? (g k % (get_scale_degrees scale).length) = some d ∧
      notes.get? (d % notes.length) = some seed ∧
      m.head? = some (MNote.bare seed) ∧
      ∀ e ∈ m.tail, ∃ s dur, e = MNote.pair s dur ∧ s ∈ notes ∧ dur ∈ note_durations := by
  have hd : (get_scale_degrees scale).length = 7 := degrees_len_seven scale hs
  have hdeg_ne : get_scale_degrees scale ≠ [] := by
    intro h0
    rw [h0] at hd
    cases hd
  obtain ⟨d, _, hget, hcs⟩ := choice_ne_nil g k hdeg_ne
  have hseedlt : d % notes.length < notes.length := Nat.mod_lt _ (by norm_num [notes])
  have hseed : notes.get? (d % notes.length) =
      some (notes.get ⟨d % notes.length, hseedlt⟩) := List.get?_eq_get hseedlt
  obtain ⟨rest, k2, hloop, hlen, hall⟩ :=
    melody_loop_shape g prog (get_scale_degrees scale) (catalog_mem_ne_nil prog hp) hd
      63 (k + 1) d
  refine ⟨MNote.bare (notes.get ⟨d % notes.length, hseedlt⟩) :: rest, k2, d,
    notes.get ⟨d % notes.length, hseedlt⟩, ?_, by simp [hlen], hget, hseed, rfl, ?_⟩
  · simp only [generate_melody, hcs, hseed, hloop]
  · simpa using hall

/-- Claim C5 witness: the shape theorem instantiated with the zero oracle, the
first catalog progression, and the major scale. -/
theorem c5_witness :
    ∃ m k2 d seed,
      generate_melody (fun _ => 0) 0 [ChordSym.I, ChordSym.IV, ChordSym.V] "major" =
        some (m, k2) ∧
      m.length = 64 ∧
      (get_scale_degrees "major").get?
        ((fun _ : Nat => 0) 0 % (get_scale_degrees "major").length) = some d ∧
      notes.get? (d % notes.length) = some seed ∧
      m.head? = some (MNote.bare seed) ∧
      ∀ e ∈ m.tail, ∃ s dur, e = MNote.pair s dur ∧ s ∈ notes ∧ dur ∈ note_durations :=
  c5_melody_shape (fun _ => 0) 0 [ChordSym.I, ChordSym.IV, ChordSym.V] "major"
    (by decide) (by decide)

/-- The total value of a harmony comprehension body on an entry on which it
cannot raise: the claim's formula `(pool[(indexOf(letter) + offset) mod
len(pool)], 0.25)` for a pair, pass-through for a bare letter. -/
def hstepT (pool : List String) (offset : Nat) : MNote → String × ℚ
  | MNote.pair s _ =>
    (pool.getD (((index_of notes s).getD 0 + offset) % pool.length) "", (1/4 : ℚ))
  | MNote.bare s => (s, (1/4 : ℚ))

section HarmonyHelpers

lemma index_of_of_mem {s : String} :
    ∀ {l : List String}, s ∈ l → ∃ i, index_of l s = some i := by
  intro l
  induction l with
  | nil => intro h; cases h
  | cons x xs ih =>
    intro h
    by_cases hx : x = s
    · exact ⟨0, by simp [index_of, hx]⟩
    · have hmem : s ∈ xs := by
        rcases List.mem_cons.mp h with h | h
        · exact absurd h.symm hx
        · exact h
      obtain ⟨i, hi⟩ := ih hmem
      exact ⟨i + 1, by simp [index_of, hx, hi]⟩

lemma hpool_pos {prog : List ChordSym} {scale : String}
    (hp : prog ≠ []) (hs : scale ∈ known_scales) : 0 < (hpool prog scale).length := by
  cases prog with
  | nil => exact absurd rfl hp
  | cons sym rest =>
    have h7 : (get_harmonic_notes sym scale).length = 7 := by
      simp [get_harmonic_notes, degrees_len_seven scale hs]
    simp [hpool, h7]

lemma hstep_eq {pool : List String} (offset : Nat) (hpos : 0 < pool.length) :
    ∀ e : MNote, pair_okb e = true → hstep pool offset e = some (hstepT pool offset e) := by
  intro e hok
  cases e with
  | bare s => rfl
  | pair s d =>
    have hmem : s ∈ notes := of_decide_eq_true hok
    obtain ⟨i, hi⟩ := index_of_of_mem hmem
    have hlt : (i + offset) % pool.length < pool.length := Nat.mod_lt _ hpos
    simp [hstep, hstepT, hi, List.getD_eq_getElem?_getD, List.getElem?_eq_getElem hlt]

lemma map_option_eq_map {α β : Type} (f : α → Option β) (fT : α → β) :
    ∀ l : List α, (∀ a ∈ l, f a = some (fT a)) →
      map_option f l = some (l.map fT) := by
  intro l
  induction l with
  | nil => intro _; rfl
  | cons a rest ih =>
    intro h
    have ha : f a = some (fT a) := h a (List.mem_cons_self _ _)
    have hrest := ih (fun x hx => h x (List.mem_cons_of_mem _ hx))
    simp [map_option, ha, hrest]

lemma hstepT_snd (pool : List String) (offset : Nat) (e : MNote) :
    (hstepT pool offset e).2 = (1/4 : ℚ) := by
  cases e <;> rfl

end HarmonyHelpers

/-- Claim C6: for every melody and every non-empty progression over a known
scale whose pair entries carry alphabet letters, `generate_harmony` returns
the offset-2 pass over the whole melody followed by the offset-4 pass, each
pair entry contributing `(pool[(indexOf(letter) + offset) mod len(pool)],
0.25)` with `pool` the concatenation of the harmonic notes over the
progression; hence the output length is exactly twice the melody length and
every output duration is 0.25. -/
theorem c6_harmony_shape (melody : List MNote) (prog : List ChordSym)
    (scale : String) (hp : prog ≠ []) (hs : scale ∈ known_scales)
    (hm : ∀ e ∈ melody, pair_okb e = true) :
    ∃ h, generate_harmony melody prog scale = some h ∧
      h = melody.map (hstepT (hpool prog scale) 2) ++
          melody.map (hstepT (hpool prog scale) 4) ∧
      h.length = 2 * melody.length ∧
      ∀ e ∈ h, e.2 = (1/4 : ℚ) := by
  have hpos := hpool_pos hp hs
  have h2 := map_option_eq_map (hstep (hpool prog scale) 2) (hstepT (hpool prog scale) 2)
    melody (fun a ha => hstep_eq 2 hpos a (hm a ha))
  have h4 := map_option_eq_map (hstep (hpool prog scale) 4) (hstepT (hpool prog scale) 4)
    melody (fun a ha => hstep_eq 4 hpos a (hm a ha))
  refine ⟨_, ?_, rfl, ?_, ?_⟩
  · simp only [generate_harmony, h2, h4]
  · simp [Nat.two_mul]
  · intro e he
    rcases List.mem_append.mp he with he | he <;>
      · obtain ⟨a, _, ha⟩ := List.mem_map.mp he
        rw [← ha, hstepT_snd]

/-- Claim C6 witness: the shape theorem instantiated on a two-entry melody
(one pair, one bare seed letter), the progression `[I]`, and the major
scale. -/
theorem c6_witness :
    ∃ h, generate_harmony [MNote.pair "C" 1, MNote.bare "X"] [ChordSym.I] "major" =
        some h ∧
      h = [MNote.pair "C" 1, MNote.bare "X"].map (hstepT (hpool [ChordSym.I] "major") 2) ++
          [MNote.pair "C" 1, MNote.bare "X"].map (hstepT (hpool [ChordSym.I] "major") 4) ∧
      h.length = 2 * ([MNote.pair "C" 1, MNote.bare "X"] : List MNote).length ∧
      ∀ e ∈ h, e.2 = (1/4 : ℚ) :=
  c6_harmony_shape [MNote.pair "C" 1, MNote.bare "X"] [ChordSym.I] "major"
    (by decide) (by decide) (by decide)

/-- Claim C7: the orchestrated pipeline is atomic.  If `generate_music`
produces nothing, some step failed (the chord draw, the melody, the harmony,
or the bass), and no partial composition escapes; if every step succeeds, the
result is the complete triple of the step outputs. -/
theorem c7_pipeline_atomicity (g : Nat → Nat) (k : Nat) (scale : String) :
    (generate_music g k scale = none →
      generate_chord_progression g k scale = none ∨
      ∃ prog k1, generate_chord_progression g k scale = some (prog, k1) ∧
        (generate_melody g k1 prog scale = none ∨
         ∃ mel k2, generate_melody g k1 prog scale = some (mel, k2) ∧
           (generate_harmony ((mel.map normalize).map (fun p => MNote.pair p.1 p.2))
               prog scale = none ∨
            ∃ h2, generate_harmony ((mel.map normalize).map (fun p => MNote.pair p.1 p.2))
                prog scale = some h2 ∧
              generate_bass ((mel.map normalize).map (fun p => (BassIn.str p.1, p.2)))
                scale = none))) ∧
    (∀ (prog : List ChordSym) (k1 : Nat) (mel : List MNote) (k2 : Nat)
        (h2 : List (String × ℚ)) (b : List (BassIn × ℚ)),
      generate_chord_progression g k scale = some (prog, k1) →
      generate_melody g k1 prog scale = some (mel, k2) →
      generate_harmony ((mel.map normalize).map (fun p => MNote.pair p.1 p.2))
        prog scale = some h2 →
      generate_bass ((mel.map normalize).map (fun p => (BassIn.str p.1, p.2)))
        scale = some b →
      generate_music g k scale = some (mel.map normalize, h2, b)) := by
  constructor
  · intro hnone
    cases hc : generate_chord_progression g k scale with
    | none => exact Or.inl rfl
    | some p =>
      obtain ⟨prog, k1⟩ := p
      refine Or.inr ⟨prog, k1, rfl, ?_⟩
      cases hm : generate_melody g k1 prog scale with
      | none => exact Or.inl rfl
      | some q =>
        obtain ⟨mel, k2⟩ := q
        refine Or.inr ⟨mel, k2, rfl, ?_⟩
        cases hh : generate_harmony ((mel.map normalize).map (fun p => MNote.pair p.1 p.2))
            prog scale with
        | none => exact Or.inl rfl
        | some h2 =>
          refine Or.inr ⟨h2, rfl, ?_⟩
          cases hb : generate_bass ((mel.map normalize).map (fun p => (BassIn.str p.1, p.2)))
              scale with
          | none => rfl
          | some b =>
            exfalso
            have hsome : generate_music g k scale = some (mel.map normalize, h2, b) := by
              unfold generate_music
              simp only [hc, hm, hh, hb]
            rw [hnone] at hsome
            cases hsome
  · intro prog k1 mel k2 h2 b hc hm hh hb
    unfold generate_music
    simp only [hc, hm, hh, hb]

/-- Claim C7 witness: at the unknown scale name "nosuch" the run produces
nothing, and the theorem locates the failing step. -/
theorem c7_witness :
    generate_chord_progression (fun _ => 0) 0 "nosuch" = none ∨
    ∃ prog k1, generate_chord_progression (fun _ => 0) 0 "nosuch" = some (prog, k1) ∧
      (generate_melody (fun _ => 0) k1 prog "nosuch" = none ∨
       ∃ mel k2, generate_melody (fun _ => 0) k1 prog "nosuch" = some (mel, k2) ∧
         (generate_harmony ((mel.map normalize).map (fun p => MNote.pair p.1 p.2))
             prog "nosuch" = none ∨
          ∃ h2, generate_harmony ((mel.map normalize).map (fun p => MNote.pair p.1 p.2))
              prog "nosuch" = some h2 ∧
            generate_bass ((mel.map normalize).map (fun p => (BassIn.str p.1, p.2)))
              "nosuch" = none)) :=
  (c7_pipeline_atomicity (fun _ => 0) 0 "nosuch").1 (by rfl)

section CongrHelpers

lemma melody_loop_congr (g1 g2 : Nat → Nat) (prog : List ChordSym)
    (degrees : List Nat) :
    ∀ n k current : Nat, (∀ i, i < 3 * n → g1 (k + i) = g2 (k + i)) →
      melody_loop g1 prog degrees n k current =
        melody_loop g2 prog degrees n k current := by
  intro n
  induction n with
  | zero => intro k current _; rfl
  | succ n ih =>
    intro k current h
    have h0 : g1 k = g2 k := by simpa using h 0 (by omega)
    have h1 : g1 (k + 1) = g2 (k + 1) := h 1 (by omega)
    have h2 : g1 (k + 2) = g2 (k + 2) := h 2 (by omega)
    simp only [melody_loop]
    rw [choice_congr prog h0]
    cases hc : choice g2 k prog with
    | none => rfl
    | some p =>
      obtain ⟨sym, k1⟩ := p
      obtain ⟨-, hk1⟩ := choice_some_inv hc
      subst hk1
      dsimp only
      rw [choice_congr _ h1]
      cases hs2 : choice g2 (k + 1) (available_steps (chord_symbols_to_degrees sym)) with
      | none => rfl
      | some q =>
        obtain ⟨step, k2⟩ := q
        obtain ⟨-, hk2⟩ := choice_some_inv hs2
        subst hk2
        dsimp only
        cases hn : notes.get? ((current + step) % degrees.length) with
        | none => rfl
        | some s =>
          have h2' : g1 (k + 1 + 1) = g2 (k + 1 + 1) := by
            have : k + 1 + 1 = k + 2 := by omega
            rw [this]
            exact h2
          rw [choice_congr note_durations h2']
          cases hd : choice g2 (k + 1 + 1) note_durations with
          | none => rfl
          | some r =>
            obtain ⟨dur, k3⟩ := r
            obtain ⟨-, hk3⟩ := choice_some_inv hd
            subst hk3
            dsimp only
            rw [ih (k + 1 + 1 + 1) ((current + step) % degrees.length) ?_]
            intro i hi
            have heq : k + 1 + 1 + 1 + i = k + (3 + i) := by omega
            rw [heq]
            exact h (3 + i) (by omega)

lemma generate_melody_congr (g1 g2 : Nat → Nat) (k : Nat) (prog : List ChordSym)
    (scale : String) (h : ∀ i, i < 190 → g1 (k + i) = g2 (k + i)) :
    generate_melody g1 k prog scale = generate_melody g2 k prog scale := by
  have h0 : g1 k = g2 k := by simpa using h 0 (by omega)
  simp only [generate_melody]
  rw [choice_congr _ h0]
  cases hc : choice g2 k (get_scale_degrees scale) with
  | none => rfl
  | some p =>
    obtain ⟨current, k1⟩ := p
    obtain ⟨-, hk1⟩ := choice_some_inv hc
    subst hk1
    dsimp only
    cases hn : notes.get? (current % notes.length) with
    | none => rfl
    | some seed =>
      rw [melody_loop_congr g1 g2 prog (get_scale_degrees scale) 63 (k + 1) current ?_]
      intro i hi
      have heq : k + 1 + i = k + (1 + i) := by omega
      rw [heq]
      exact h (1 + i) (by omega)

end CongrHelpers

/-- Claim C8: determinism. Two runs of the composition pipeline with the same
scale name whose random sources agree on the (at most 191) draws consumed
from the shared counter produce identical (melody, harmony, bass) results —
in particular, identical initial random-source state gives identical
triples. -/
theorem c8_determinism (g1 g2 : Nat → Nat) (k : Nat) (scale : String)
    (h : ∀ i, i < 191 → g1 (k + i) = g2 (k + i)) :
    generate_music g1 k scale = generate_music g2 k scale := by
  have h0 : g1 k = g2 k := by simpa using h 0 (by omega)
  have hcp : generate_chord_progression g1 k scale =
      generate_chord_progression g2 k scale := choice_congr _ h0
  unfold generate_music
  rw [hcp]
  cases hc : generate_chord_progression g2 k scale with
  | none => rfl
  | some p =>
    obtain ⟨prog, k1⟩ := p
    have hk1 : k1 = k + 1 := (choice_some_inv hc).2
    subst hk1
    dsimp only
    have hmel : generate_melody g1 (k + 1) prog scale =
        generate_melody g2 (k + 1) prog scale := by
      apply generate_melody_congr
      intro i hi
      have heq : k + 1 + i = k + (1 + i) := by omega
      rw [heq]
      exact h (1 + i) (by omega)
    simp only [hmel]

/-- Claim C8 witness: the determinism theorem applied to two copies of the
zero oracle over the major scale. -/
theorem c8_witness :
    generate_music (fun _ => 0) 0 "major" = generate_music (fun _ => 0) 0 "major" :=
  c8_determinism (fun _ => 0) (fun _ => 0) 0 "major" (fun _ _ => rfl)

end Music
